import Mathlib

/-!
Verification of the cookie attribute parser/formatter of `cookie-rs`
(`src/lib.rs`).  Strings are modelled as lists of characters; every
operation of the source (`trim`, `split(';')`, `splitn(2, '=')`,
`to_ascii_lowercase`, `i64::from_str`, `BTreeMap` insertion) is embedded
as an executable Lean function.  The external `time` crate's `strptime`
is kept abstract: `parseWith` takes it as a function argument, so every
theorem holds for an arbitrary date parser.
-/

namespace CookieRs

/-- Model of a Rust string slice: its list of characters. -/
abbrev Str := List Char

/-- Characters of a Lean string literal, used to write concrete inputs. -/
def chars (s : String) : Str := s.data

/-- Model of Rust `char::is_whitespace` restricted to the ASCII range
(the only characters the claims exercise). -/
def isWs (c : Char) : Bool :=
  c == ' ' || c == '\t' || c == '\n' || c == '\x0b' || c == '\x0c' || c == '\r'

/-- Leading-whitespace removal, first half of Rust `str::trim`. -/
def trimLeft (s : Str) : Str := s.dropWhile isWs

/-- Trailing-whitespace removal, second half of Rust `str::trim`. -/
def trimRight (s : Str) : Str := (s.reverse.dropWhile isWs).reverse

/-- Model of Rust `str::trim`. -/
def trim (s : Str) : Str := trimRight (trimLeft s)

/-- Model of Rust `str::split(sep)`: the list of segments between
occurrences of `sep` (always at least one segment, possibly empty). -/
def splitOnChar (sep : Char) : Str → List Str
  | [] => [[]]
  | a :: t =>
    if a = sep then [] :: splitOnChar sep t
    else
      match splitOnChar sep t with
      | [] => [[a]]
      | h :: r => (a :: h) :: r

/-- Model of Rust `str::splitn(2, sep)`: the part before the first `sep`
and, when `sep` occurs, the rest after it. -/
def splitn2 (sep : Char) : Str → Str × Option Str
  | [] => ([], none)
  | a :: t =>
    if a = sep then ([], some t)
    else
      let r := splitn2 sep t
      (a :: r.1, r.2)

/-- Model of the local `attr_split` of `Cookie::parse`: split an attribute
on its first `=` when present, trimming the key and the value. -/
def attr_split (s : Str) : Str × Option Str :=
  match splitn2 '=' s with
  | (before, some after) => (trim before, some (trim after))
  | (_, none) => (trim s, none)

/-- Model of the local `split` of `Cookie::parse`: trim, split on the
first `=`, fail when there is none, and trim both parts. -/
def split (s : Str) : Option (Str × Str) :=
  match splitn2 '=' (trim s) with
  | (first, some second) => some (trim first, trim second)
  | (_, none) => none

/-- Whether a character is an ASCII uppercase letter (Rust
`char::is_ascii_uppercase`): code point between 65 and 90. -/
def isUpperCh (c : Char) : Bool :=
  decide (65 ≤ c.toNat) && decide (c.toNat ≤ 90)

/-- Model of Rust `char::to_ascii_lowercase`: shift an ASCII uppercase
letter down by 32 code points, leave every other character alone. -/
def toAsciiLower (c : Char) : Char :=
  if isUpperCh c then Char.ofNat (c.toNat + 32) else c

/-- Model of Rust `str::to_ascii_lowercase`. -/
def toLower (s : Str) : Str := s.map toAsciiLower

/-- Whether a character is an ASCII digit. -/
def isDigitCh (c : Char) : Bool :=
  decide (48 ≤ c.toNat) && decide (c.toNat ≤ 57)

/-- Numeric value of an ASCII digit. -/
def digitVal (c : Char) : Nat := c.toNat - 48

/-- Model of Rust `i64::from_str` (used by `v.parse::<i64>()`): an
optional sign followed by one or more ASCII digits, rejected when the
value overflows the `i64` range. -/
def parseI64 (s : Str) : Option Int :=
  let core : Str → Int → Option Int := fun ds sign =>
    if ds = [] then none
    else if ds.all isDigitCh then
      let n : Int := sign * ((ds.foldl (fun acc c => acc * 10 + digitVal c) 0 : Nat) : Int)
      if -(2 ^ 63) ≤ n ∧ n ≤ 2 ^ 63 - 1 then some n else none
    else none
  match s with
  | '+' :: t => core t 1
  | '-' :: t => core t (-1)
  | t => core t 1

/-- Model of `time::Tm`: the broken-down time record of the external
`time` crate (its parsing stays abstract in this development). -/
structure Tm where
  tm_sec : Int
  tm_min : Int
  tm_hour : Int
  tm_mday : Int
  tm_mon : Int
  tm_year : Int
  tm_wday : Int
  tm_yday : Int
  tm_isdst : Int
  tm_utcoff : Int
  tm_nsec : Int
deriving DecidableEq

/-- The `Cookie` struct of `src/lib.rs`.  `custom` models the `BTreeMap`
as an association list kept sorted by key. -/
structure Cookie where
  name : Str
  value : Str
  expires : Option Tm
  max_age : Option Nat
  domain : Option Str
  path : Option Str
  secure : Bool
  httponly : Bool
  custom : List (Str × Str)
deriving DecidableEq

/-- `Cookie::new`: bare name/value, every optional field unset. -/
def Cookie.new (name value : Str) : Cookie :=
  ⟨name, value, none, none, none, none, false, false, []⟩

/-- Lexicographic order on strings by code point, the order of Rust's
`BTreeMap<String, _>` (UTF-8 byte order coincides with code-point order). -/
def strLt : Str → Str → Bool
  | [], [] => false
  | [], _ :: _ => true
  | _ :: _, [] => false
  | a :: s, b :: t =>
    if a.toNat < b.toNat then true
    else if b.toNat < a.toNat then false
    else strLt s t

/-- Model of `BTreeMap::insert` on a key-sorted association list: place
the pair at its ordered position, replacing an existing binding. -/
def mapInsert : List (Str × Str) → Str → Str → List (Str × Str)
  | [], k, v => [(k, v)]
  | (k0, v0) :: t, k, v =>
    if strLt k k0 then (k, v) :: (k0, v0) :: t
    else if k = k0 then (k, v) :: t
    else (k0, v0) :: mapInsert t k v

/-- Model of `BTreeMap::get` on an association list. -/
def mapLookup : List (Str × Str) → Str → Option Str
  | [], _ => none
  | (k0, v0) :: t, k => if k = k0 then some v0 else mapLookup t k

/-- First `Expires` date format tried by `Cookie::parse`. -/
def fmtA : Str := chars "%a, %d %b %Y %H:%M:%S %Z"

/-- Second `Expires` date format tried by `Cookie::parse`. -/
def fmtB : Str := chars "%A, %d-%b-%y %H:%M:%S %Z"

/-- Third `Expires` date format tried by `Cookie::parse`. -/
def fmtC : Str := chars "%a, %d-%b-%Y %H:%M:%S %Z"

/-- Fourth `Expires` date format tried by `Cookie::parse`. -/
def fmtD : Str := chars "%a %b %d %H:%M:%S %Y"

/-- The leading-dot strip of the `domain` branch:
`if v.chars().next() == Some('.') { &v[1..] } else { v }`. -/
def stripDot : Str → Str
  | '.' :: t => t
  | v => v

/-- The `or_else` chain of the `expires` branch: try the four formats in
order with the abstract `strptime`, first success wins. -/
def tryDates (st : Str → Str → Option Tm) (v : Str) : Option Tm :=
  match st v fmtA with
  | some t => some t
  | none =>
    match st v fmtB with
    | some t => some t
    | none =>
      match st v fmtC with
      | some t => some t
      | none => st v fmtD

/-- The attribute dispatch of `Cookie::parse`: the `match` over the
lower-cased key and the optional value, one arm per recognized
attribute, with the `continue`-on-failure arms returning the cookie
unchanged. -/
def processKV (st : Str → Str → Option Tm) (c : Cookie) (k : Str) (v : Option Str) : Cookie :=
  if toLower k = chars "secure" then { c with secure := true }
  else if toLower k = chars "httponly" then { c with httponly := true }
  else
    match v with
    | some v =>
      if toLower k = chars "max-age" then
        match parseI64 v with
        | none => c
        | some n => { c with max_age := some (if n < 0 then 0 else n.toNat) }
      else if toLower k = chars "domain" then
        if v = [] then c
        else { c with domain := some (toLower (stripDot v)) }
      else if toLower k = chars "path" then { c with path := some v }
      else if toLower k = chars "expires" then
        match tryDates st v with
        | none => c
        | some t => { c with expires := some t }
      else { c with custom := mapInsert c.custom k v }
    | none => c

/-- One iteration of the attribute loop of `Cookie::parse`. -/
def processAttr (st : Str → Str → Option Tm) (c : Cookie) (attr : Str) : Cookie :=
  processKV st c (attr_split attr).1 (attr_split attr).2

/-- `Cookie::parse`, parametrized by the external `strptime`. -/
def parseWith (st : Str → Str → Option Tm) (s : Str) : Option Cookie :=
  match splitOnChar ';' (trim s) with
  | [] => none
  | keyval :: attrs =>
    match split keyval with
    | none => none
    | some (name, value) =>
      if name = [] then none
      else some (List.foldl (processAttr st) (Cookie.new name value) attrs)

/-- A date parser that accepts nothing, the simplest `strptime`
instantiation for concrete evaluations. -/
def noDate : Str → Str → Option Tm := fun _ _ => none

/-- Decimal digits of a natural number, for the `Max-Age` display. -/
def natChars (n : Nat) : Str := Nat.toDigits 10 n

/-- Two-digit zero-padded decimal, for date display. -/
def pad2 (n : Nat) : Str := if n < 10 then '0' :: natChars n else natChars n

/-- Weekday abbreviation of a `tm_wday` value. -/
def wdayName (n : Int) : Str :=
  if n = 0 then chars "Sun" else if n = 1 then chars "Mon"
  else if n = 2 then chars "Tue" else if n = 3 then chars "Wed"
  else if n = 4 then chars "Thu" else if n = 5 then chars "Fri"
  else chars "Sat"

/-- Month abbreviation of a `tm_mon` value. -/
def monName (n : Int) : Str :=
  if n = 0 then chars "Jan" else if n = 1 then chars "Feb"
  else if n = 2 then chars "Mar" else if n = 3 then chars "Apr"
  else if n = 4 then chars "May" else if n = 5 then chars "Jun"
  else if n = 6 then chars "Jul" else if n = 7 then chars "Aug"
  else if n = 8 then chars "Sep" else if n = 9 then chars "Oct"
  else if n = 10 then chars "Nov" else chars "Dec"

/-- Modelled from the spec: the external `time` crate's `Tm::rfc822`
RFC-1123-style rendering used by the `Expires` clause of `Display`
(the crate is not part of this repository's sources). -/
def fmtTm (t : Tm) : Str :=
  wdayName t.tm_wday ++ chars ", " ++ pad2 t.tm_mday.toNat ++ chars " "
    ++ monName t.tm_mon ++ chars " " ++ natChars (t.tm_year + 1900).toNat ++ chars " "
    ++ pad2 t.tm_hour.toNat ++ chars ":" ++ pad2 t.tm_min.toNat ++ chars ":"
    ++ pad2 t.tm_sec.toNat ++ chars " GMT"

/-- The custom-attribute loop of `Display for Cookie`: `"; key=value"`
for each stored pair, in list order. -/
def emitCustom : List (Str × Str) → Str
  | [] => []
  | (k, v) :: t => chars "; " ++ k ++ chars "=" ++ v ++ emitCustom t

/-- `impl fmt::Display for Cookie`: name/value then each optional field
in the source's order, then the custom map in storage order. -/
def toStr (c : Cookie) : Str :=
  c.name ++ chars "=" ++ c.value
    ++ (if c.httponly then chars "; HttpOnly" else [])
    ++ (if c.secure then chars "; Secure" else [])
    ++ (match c.path with | some p => chars "; Path=" ++ p | none => [])
    ++ (match c.domain with | some d => chars "; Domain=" ++ d | none => [])
    ++ (match c.max_age with | some n => chars "; Max-Age=" ++ natChars n | none => [])
    ++ (match c.expires with | some t => chars "; Expires=" ++ fmtTm t | none => [])
    ++ emitCustom c.custom

/-- Ordered insertion used by `sortPairs`. -/
def insertSorted (p : Str × Str) : List (Str × Str) → List (Str × Str)
  | [] => [p]
  | q :: t => if strLt p.1 q.1 then p :: q :: t else q :: insertSorted p t

/-- Insertion sort of custom entries by key, expressing the claimed
"ascending key order" independently of the storage order. -/
def sortPairs : List (Str × Str) → List (Str × Str)
  | [] => []
  | p :: t => insertSorted p (sortPairs t)

/-- The format of the claims' words: name/value, then each conditional
clause in the fixed order, then every custom pair in ascending key
order (made explicit by sorting). -/
def specFormat (c : Cookie) : Str :=
  c.name ++ chars "=" ++ c.value
    ++ (if c.httponly then chars "; HttpOnly" else [])
    ++ (if c.secure then chars "; Secure" else [])
    ++ (match c.path with | some p => chars "; Path=" ++ p | none => [])
    ++ (match c.domain with | some d => chars "; Domain=" ++ d | none => [])
    ++ (match c.max_age with | some n => chars "; Max-Age=" ++ natChars n | none => [])
    ++ (match c.expires with | some t => chars "; Expires=" ++ fmtTm t | none => [])
    ++ emitCustom (sortPairs c.custom)

/-- The first semicolon-delimited segment of the trimmed input. -/
def firstSegment (s : Str) : Str := (splitOnChar ';' (trim s)).headD []

/-- The claims' failure condition: the first segment of the trimmed
input has no `=`, or the part before its first `=` is empty after
trimming. -/
def malformedFirst (s : Str) : Prop :=
  '=' ∉ firstSegment s ∨ trim ((firstSegment s).takeWhile (fun c => c != '=')) = []

/-- No character of the string is an ASCII uppercase letter: the claims'
reading of "entirely lowercase" for an ASCII-lowercased value. -/
def lowercased (s : Str) : Prop := ∀ a ∈ s, isUpperCh a = false

/-- The custom association list is strictly sorted by key, the invariant
of the `BTreeMap` model. -/
def customSorted (m : List (Str × Str)) : Prop :=
  List.Chain' (fun a b : Str × Str => strLt a.1 b.1 = true) m

/-- The six attribute names intercepted by the dispatch. -/
def recognizedKeys : List Str :=
  [chars "secure", chars "httponly", chars "max-age",
   chars "domain", chars "path", chars "expires"]

/-- A concrete broken-down time, for witnesses. -/
def tm0 : Tm := ⟨20, 31, 7, 22, 2, 112, 4, 81, 0, 0, 0⟩

/-- A date parser recognizing one string under the third format only,
for the `Expires` fallback witness. -/
def dateStub : Str → Str → Option Tm := fun v fmt =>
  if v = chars "Thu, 22-Mar-2012 07:31:20 GMT" && fmt = fmtC then some tm0 else none

theorem charToNat_inj {a b : Char} (h : a.toNat = b.toNat) : a = b := by
  rw [← Char.ofNat_toNat a, ← Char.ofNat_toNat b, h]

theorem toNat_ofNat_of_range {n : Nat} (h1 : 97 ≤ n) (h2 : n ≤ 122) :
    (Char.ofNat n).toNat = n := by
  unfold Char.ofNat
  split
  · rfl
  · rename_i hv
    exact absurd (Or.inl (by omega)) hv

theorem isUpperCh_toAsciiLower (c : Char) : isUpperCh (toAsciiLower c) = false := by
  unfold toAsciiLower
  by_cases h : isUpperCh c = true
  · rw [if_pos h]
    have hr : 65 ≤ c.toNat ∧ c.toNat ≤ 90 := by
      unfold isUpperCh at h
      simpa using h
    have : (Char.ofNat (c.toNat + 32)).toNat = c.toNat + 32 :=
      toNat_ofNat_of_range (by omega) (by omega)
    unfold isUpperCh
    rw [this]
    simp
    omega
  · rw [if_neg h]
    exact Bool.not_eq_true _ ▸ (by simpa using h)

theorem lowercased_toLower (s : Str) : lowercased (toLower s) := by
  intro a ha
  rw [toLower, List.mem_map] at ha
  obtain ⟨b, _, rfl⟩ := ha
  exact isUpperCh_toAsciiLower b

theorem dropWhile_cons_eq_self {p : Char → Bool} {a : Char} {t : Str} :
    List.dropWhile p (a :: t) = a :: t ↔ p a = false := by
  constructor
  · intro h
    by_cases hp : p a = true
    · rw [List.dropWhile_cons, if_pos hp] at h
      have hle : (List.dropWhile p t).length ≤ t.length :=
        (List.dropWhile_suffix p).length_le
      have hl : (a :: t).length ≤ t.length := h ▸ hle
      simp at hl
    · simpa using hp
  · intro h
    rw [List.dropWhile_cons, if_neg (by simp [h])]

theorem mem_dropWhile_iff {p : Char → Bool} {a : Char} (h : p a = false) (l : Str) :
    a ∈ List.dropWhile p l ↔ a ∈ l := by
  constructor
  · intro hm
    exact (List.dropWhile_suffix p).subset hm
  · intro hm
    induction l with
    | nil => simp at hm
    | cons b t ih =>
      rw [List.dropWhile_cons]
      by_cases hb : p b = true
      · rw [if_pos hb]
        rcases List.mem_cons.mp hm with he | ht
        · rw [he] at h; rw [h] at hb; cases hb
        · exact ih ht
      · rw [if_neg hb]
        exact hm

theorem mem_trim_iff {a : Char} (h : isWs a = false) (s : Str) :
    a ∈ trim s ↔ a ∈ s := by
  unfold trim trimRight trimLeft
  rw [List.mem_reverse, mem_dropWhile_iff h, List.mem_reverse, mem_dropWhile_iff h]

theorem trim_nil_iff {s : Str} : trim s = [] ↔ ∀ a ∈ s, isWs a = true := by
  unfold trim trimRight trimLeft
  rw [List.reverse_eq_nil_iff, List.dropWhile_eq_nil_iff]
  constructor
  · intro h a ha
    by_cases hw : isWs a = true
    · exact hw
    · exfalso
      have h1 : a ∈ List.dropWhile isWs s := by
        rw [mem_dropWhile_iff (by simpa using hw)]
        exact ha
      have h2 : a ∈ (List.dropWhile isWs s).reverse := List.mem_reverse.mpr h1
      have h3 := h a h2
      rw [h3] at hw
      exact hw rfl
  · intro h a ha
    exact h a ((List.dropWhile_suffix isWs).subset (List.mem_reverse.mp ha))

theorem trimRight_decomp (y : Str) :
    y = trimRight y ++ (y.reverse.takeWhile isWs).reverse := by
  conv_lhs => rw [← List.reverse_reverse y, ← List.takeWhile_append_dropWhile isWs y.reverse]
  rw [List.reverse_append]
  rfl

theorem trim_decomp (s : Str) :
    ∃ w1 w2, s = w1 ++ trim s ++ w2 ∧ (∀ a ∈ w1, isWs a = true) ∧ (∀ a ∈ w2, isWs a = true) := by
  refine ⟨s.takeWhile isWs, ((trimLeft s).reverse.takeWhile isWs).reverse, ?_, ?_, ?_⟩
  · conv_lhs => rw [← List.takeWhile_append_dropWhile isWs s]
    rw [List.append_assoc]
    congr 1
    exact trimRight_decomp (trimLeft s)
  · intro a ha
    exact List.mem_takeWhile_imp ha
  · intro a ha
    rw [List.mem_reverse] at ha
    exact List.mem_takeWhile_imp ha

theorem takeWhile_append_all {p : Char → Bool} {l : Str} (r : Str) (h : ∀ a ∈ l, p a = true) :
    (l ++ r).takeWhile p = l ++ r.takeWhile p := by
  induction l with
  | nil => simp
  | cons b t ih =>
    rw [List.cons_append, List.takeWhile_cons, if_pos (h b (List.mem_cons_self b t)),
      List.cons_append]
    rw [ih (fun a ha => h a (List.mem_cons_of_mem b ha))]

theorem takeWhile_append_stop {p : Char → Bool} {l : Str} (r : Str) (h : ∃ a ∈ l, p a = false) :
    (l ++ r).takeWhile p = l.takeWhile p := by
  induction l with
  | nil =>
    obtain ⟨a, ha, _⟩ := h
    simp at ha
  | cons b t ih =>
    by_cases hb : p b = true
    · rw [List.cons_append, List.takeWhile_cons, if_pos hb, List.takeWhile_cons, if_pos hb]
      obtain ⟨a, ha, hpa⟩ := h
      rcases List.mem_cons.mp ha with he | hm
      · rw [he] at hpa; rw [hpa] at hb; cases hb
      · rw [ih ⟨a, hm, hpa⟩]
    · have hb' : p b = false := by simpa using hb
      rw [List.cons_append, List.takeWhile_cons, if_neg (by simp [hb']),
        List.takeWhile_cons, if_neg (by simp [hb'])]

theorem trimLeft_eq_self_of_trim {s : Str} (h : trim s = s) : List.dropWhile isWs s = s := by
  have h1 : (trim s).length ≤ (trimLeft s).length := by
    unfold trim trimRight
    calc ((trimLeft s).reverse.dropWhile isWs).reverse.length
        = ((trimLeft s).reverse.dropWhile isWs).length := by rw [List.length_reverse]
      _ ≤ (trimLeft s).reverse.length := (List.dropWhile_suffix isWs).length_le
      _ = (trimLeft s).length := by rw [List.length_reverse]
  have h2 : (trimLeft s).length ≤ s.length := (List.dropWhile_suffix isWs).length_le
  have h3 : s.length ≤ (trimLeft s).length := by
    calc s.length = (trim s).length := by rw [h]
      _ ≤ (trimLeft s).length := h1
  exact (List.dropWhile_suffix isWs).eq_of_length (Nat.le_antisymm h2 h3)

theorem trimRight_eq_self_of_trim {s : Str} (h : trim s = s) :
    List.dropWhile isWs s.reverse = s.reverse := by
  have h1 : trimLeft s = s := trimLeft_eq_self_of_trim h
  have h2 : trimRight s = s := by
    calc trimRight s = trimRight (trimLeft s) := by rw [h1]
      _ = s := h
  unfold trimRight at h2
  calc List.dropWhile isWs s.reverse
      = ((List.dropWhile isWs s.reverse).reverse).reverse := by rw [List.reverse_reverse]
    _ = s.reverse := by rw [h2]

theorem head_not_ws_of_trim {a : Char} {t : Str} (h : trim (a :: t) = a :: t) :
    isWs a = false :=
  dropWhile_cons_eq_self.mp (trimLeft_eq_self_of_trim h)

theorem last_not_ws_of_trim {v : Str} {b : Char} {w : Str} (h : trim v = v)
    (hrev : v.reverse = b :: w) : isWs b = false := by
  have h1 := trimRight_eq_self_of_trim h
  rw [hrev] at h1
  exact dropWhile_cons_eq_self.mp h1

theorem trim_cons_ends {a : Char} {m : Str} {b : Char} {w : Str}
    (hrev : (a :: m).reverse = b :: w) (ha : isWs a = false) (hb : isWs b = false) :
    trim (a :: m) = a :: m := by
  unfold trim trimLeft trimRight
  rw [List.dropWhile_cons, if_neg (by simp [ha]), hrev, List.dropWhile_cons,
    if_neg (by simp [hb]), ← hrev, List.reverse_reverse]

theorem splitOnChar_ne_nil (sep : Char) (s : Str) : splitOnChar sep s ≠ [] := by
  induction s with
  | nil => simp [splitOnChar]
  | cons a t ih =>
    unfold splitOnChar
    by_cases h : a = sep
    · simp [h]
    · rw [if_neg h]
      cases hs : splitOnChar sep t with
      | nil => simp
      | cons x r => simp

theorem splitOnChar_not_mem {sep : Char} {s : Str} (h : sep ∉ s) :
    splitOnChar sep s = [s] := by
  induction s with
  | nil => rfl
  | cons a t ih =>
    have ha : a ≠ sep := fun he => h (he ▸ List.mem_cons_self a t)
    have ht : sep ∉ t := fun hm => h (List.mem_cons_of_mem a hm)
    unfold splitOnChar
    rw [if_neg ha, ih ht]

theorem splitn2_fst (sep : Char) (s : Str) :
    (splitn2 sep s).1 = s.takeWhile (fun c => c != sep) := by
  induction s with
  | nil => rfl
  | cons a t ih =>
    unfold splitn2
    by_cases h : a = sep
    · subst h
      simp [List.takeWhile_cons]
    · rw [if_neg h]
      simp only [List.takeWhile_cons]
      have : (a != sep) = true := by simpa using h
      rw [this]
      simpa using ih

theorem splitn2_snd_eq_none {sep : Char} {s : Str} :
    (splitn2 sep s).2 = none ↔ sep ∉ s := by
  induction s with
  | nil => simp [splitn2]
  | cons a t ih =>
    unfold splitn2
    by_cases h : a = sep
    · subst h
      simp
    · rw [if_neg h]
      simp only [List.mem_cons]
      constructor
      · intro hn hor
        rcases hor with he | hm
        · exact h he.symm
        · exact (ih.mp hn) hm
      · intro hn
        exact ih.mpr (fun hm => hn (Or.inr hm))

theorem splitn2_append {sep : Char} {p : Str} (r : Str) (h : sep ∉ p) :
    splitn2 sep (p ++ sep :: r) = (p, some r) := by
  induction p with
  | nil => simp [splitn2]
  | cons a t ih =>
    have ha : a ≠ sep := fun he => h (he ▸ List.mem_cons_self a t)
    have ht : sep ∉ t := fun hm => h (List.mem_cons_of_mem a hm)
    simp only [List.cons_append]
    unfold splitn2
    rw [if_neg ha, ih ht]

theorem allws_takeWhile_trim_iff {p : Char → Bool} (hp : ∀ a, isWs a = true → p a = true)
    (s : Str) :
    (∀ a ∈ (trim s).takeWhile p, isWs a = true) ↔ (∀ a ∈ s.takeWhile p, isWs a = true) := by
  obtain ⟨w1, w2, hs, hw1, hw2⟩ := trim_decomp s
  set t := trim s with ht
  rw [hs, List.append_assoc, takeWhile_append_all (t ++ w2) (fun a ha => hp a (hw1 a ha)),
    List.forall_mem_append]
  by_cases hex : ∃ a ∈ t, p a = false
  · rw [takeWhile_append_stop w2 hex]
    constructor
    · intro h
      exact ⟨hw1, h⟩
    · intro h
      exact h.2
  · push_neg at hex
    have hall : ∀ a ∈ t, p a = true := by
      intro a ha
      simpa using hex a ha
    rw [takeWhile_append_all w2 hall, List.forall_mem_append,
      List.takeWhile_eq_self_iff.mpr hall]
    constructor
    · intro h
      exact ⟨hw1, h, fun a ha => hw2 a ((List.takeWhile_sublist p).subset ha)⟩
    · intro h
      exact h.2.1

theorem trim_takeWhile_eq_nil_iff (s : Str) :
    trim ((trim s).takeWhile (fun c => c != '=')) = [] ↔
      trim (s.takeWhile (fun c => c != '=')) = [] := by
  rw [trim_nil_iff, trim_nil_iff]
  refine allws_takeWhile_trim_iff (fun a ha => ?_) s
  rcases eq_or_ne a '=' with he | hne
  · subst he
    simp [isWs] at ha
  · simpa using hne

theorem split_eq_none_iff {s : Str} : split s = none ↔ '=' ∉ s := by
  have key : (splitn2 '=' (trim s)).2 = none ↔ '=' ∉ s := by
    rw [splitn2_snd_eq_none, mem_trim_iff (by decide) s]
  unfold split
  rcases h : splitn2 '=' (trim s) with ⟨first, rest⟩
  rw [h] at key
  cases rest with
  | none => exact iff_of_true rfl (key.mp rfl)
  | some second =>
    refine iff_of_false (by simp) (fun hm => ?_)
    exact absurd (key.mpr hm) (by simp)

theorem split_eq_some {s : Str} {n v : Str} (h : split s = some (n, v)) :
    n = trim ((trim s).takeWhile (fun c => c != '=')) ∧ '=' ∈ s := by
  have hmem : '=' ∈ s := by
    by_contra hm
    rw [← split_eq_none_iff] at hm
    rw [h] at hm
    cases hm
  refine ⟨?_, hmem⟩
  unfold split at h
  rcases h2 : splitn2 '=' (trim s) with ⟨first, rest⟩
  rw [h2] at h
  cases rest with
  | none => cases h
  | some second =>
    simp only [Option.some.injEq, Prod.mk.injEq] at h
    rw [← h.1, ← splitn2_fst '=' (trim s), h2]

theorem parse_none_iff (st : Str → Str → Option Tm) (s : Str) :
    parseWith st s = none ↔ malformedFirst s := by
  unfold parseWith
  cases hsp : splitOnChar ';' (trim s) with
  | nil => exact absurd hsp (splitOnChar_ne_nil ';' (trim s))
  | cons keyval attrs =>
    have hfs : firstSegment s = keyval := by
      rw [firstSegment, hsp]
      rfl
    unfold malformedFirst
    rw [hfs]
    cases hspl : split keyval with
    | none =>
      simp only [hspl]
      exact iff_of_true trivial (Or.inl (split_eq_none_iff.mp hspl))
    | some nv =>
      rcases nv with ⟨n, v⟩
      obtain ⟨hn, hmem⟩ := split_eq_some hspl
      simp only [hspl]
      by_cases hne : n = []
      · rw [if_pos hne]
        refine iff_of_true rfl (Or.inr ?_)
        rw [← trim_takeWhile_eq_nil_iff, ← hn]
        exact hne
      · rw [if_neg hne]
        refine iff_of_false (by simp) ?_
        rintro (h1 | h2)
        · exact h1 hmem
        · rw [← trim_takeWhile_eq_nil_iff] at h2
          exact hne (hn ▸ h2)

theorem toStr_new (n v : Str) : toStr (Cookie.new n v) = n ++ '=' :: v := by
  show n ++ chars "=" ++ v ++ _ ++ _ ++ _ ++ _ ++ _ ++ _ ++ _ = n ++ '=' :: v
  simp [Cookie.new, emitCustom]
  rfl

theorem trim_name_eq_append {n v : Str} (h1 : trim n = n) (h2 : trim v = v) (h3 : n ≠ []) :
    trim (n ++ '=' :: v) = n ++ '=' :: v := by
  obtain ⟨a, t, rfl⟩ : ∃ a t, n = a :: t := by
    cases n with
    | nil => exact absurd rfl h3
    | cons a t => exact ⟨a, t, rfl⟩
  have ha : isWs a = false := head_not_ws_of_trim h1
  have hshape : (a :: t) ++ '=' :: v = a :: (t ++ '=' :: v) := rfl
  rw [hshape]
  rcases hrev : (a :: (t ++ '=' :: v)).reverse with _ | ⟨b, w⟩
  · exact absurd hrev (by simp)
  · refine trim_cons_ends hrev ha ?_
    rcases hv : v.reverse with _ | ⟨bv, wv⟩
    · have hvnil : v = [] := by
        rw [← List.reverse_eq_nil_iff]
        exact hv
      subst hvnil
      have : (a :: (t ++ '=' :: ([] : Str))).reverse = '=' :: (t.reverse ++ [a]) := by
        simp
      rw [this] at hrev
      injection hrev with hb _
      rw [← hb]
      decide
    · have : (a :: (t ++ '=' :: v)).reverse = bv :: (wv ++ '=' :: (t.reverse ++ [a])) := by
        have : (a :: (t ++ '=' :: v)).reverse = v.reverse ++ '=' :: (t.reverse ++ [a]) := by
          simp
        rw [this, hv]
        simp
      rw [this] at hrev
      injection hrev with hb _
      rw [← hb]
      exact last_not_ws_of_trim h2 hv

theorem parse_toStr_new {n v : Str} (st : Str → Str → Option Tm)
    (h1 : trim n = n) (h2 : trim v = v) (h3 : n ≠ [])
    (h4 : ';' ∉ n) (h5 : ';' ∉ v) (h6 : '=' ∉ n) :
    parseWith st (toStr (Cookie.new n v)) = some (Cookie.new n v) := by
  rw [toStr_new]
  have htrim : trim (n ++ '=' :: v) = n ++ '=' :: v := trim_name_eq_append h1 h2 h3
  have hsemi : ';' ∉ n ++ '=' :: v := by
    intro hm
    rcases List.mem_append.mp hm with hm1 | hm2
    · exact h4 hm1
    · rcases List.mem_cons.mp hm2 with he | hm3
      · exact absurd he (by decide)
      · exact h5 hm3
  have hsplit : split (n ++ '=' :: v) = some (n, v) := by
    unfold split
    rw [htrim, splitn2_append v h6]
    simp only []
    rw [h1, h2]
  unfold parseWith
  rw [htrim, splitOnChar_not_mem hsemi]
  simp only [hsplit]
  rw [if_neg h3]
  rfl

theorem processKV_secure (st : Str → Str → Option Tm) (c : Cookie) (k : Str) (v : Option Str)
    (hk : toLower k = chars "secure") : processKV st c k v = { c with secure := true } := by
  unfold processKV
  rw [hk, if_pos rfl]

theorem processKV_httponly (st : Str → Str → Option Tm) (c : Cookie) (k : Str) (v : Option Str)
    (hk : toLower k = chars "httponly") : processKV st c k v = { c with httponly := true } := by
  unfold processKV
  rw [hk, if_neg (by decide), if_pos rfl]

theorem processKV_noval (st : Str → Str → Option Tm) (c : Cookie) (k : Str)
    (hs : toLower k ≠ chars "secure") (hh : toLower k ≠ chars "httponly") :
    processKV st c k none = c := by
  unfold processKV
  rw [if_neg hs, if_neg hh]

theorem processKV_maxage_skip (st : Str → Str → Option Tm) (c : Cookie) (k v : Str)
    (hk : toLower k = chars "max-age") (hp : parseI64 v = none) :
    processKV st c k (some v) = c := by
  unfold processKV
  rw [hk, if_neg (by decide), if_neg (by decide)]
  simp only [if_pos rfl, hp]
  simp

theorem processKV_maxage_set (st : Str → Str → Option Tm) (c : Cookie) (k v : Str) (n : Int)
    (hk : toLower k = chars "max-age") (hp : parseI64 v = some n) :
    processKV st c k (some v) = { c with max_age := some (if n < 0 then 0 else n.toNat) } := by
  unfold processKV
  rw [hk, if_neg (by decide), if_neg (by decide)]
  simp only [if_pos rfl, hp]
  simp

theorem processKV_domain_skip (st : Str → Str → Option Tm) (c : Cookie) (k : Str)
    (hk : toLower k = chars "domain") : processKV st c k (some []) = c := by
  unfold processKV
  rw [hk, if_neg (by decide), if_neg (by decide)]
  simp only [if_neg (by decide : ¬(chars "domain" = chars "max-age")), if_pos rfl]
  simp

theorem processKV_domain_set (st : Str → Str → Option Tm) (c : Cookie) (k v : Str)
    (hk : toLower k = chars "domain") (hv : v ≠ []) :
    processKV st c k (some v) = { c with domain := some (toLower (stripDot v)) } := by
  unfold processKV
  rw [hk, if_neg (by decide), if_neg (by decide)]
  simp only [if_neg (by decide : ¬(chars "domain" = chars "max-age")), if_pos rfl]
  simp [if_neg hv]

theorem processKV_path (st : Str → Str → Option Tm) (c : Cookie) (k v : Str)
    (hk : toLower k = chars "path") :
    processKV st c k (some v) = { c with path := some v } := by
  unfold processKV
  rw [hk, if_neg (by decide), if_neg (by decide)]
  simp only [if_neg (by decide : ¬(chars "path" = chars "max-age")),
    if_neg (by decide : ¬(chars "path" = chars "domain")), if_pos rfl]
  simp

theorem processKV_expires (st : Str → Str → Option Tm) (c : Cookie) (k v : Str)
    (hk : toLower k = chars "expires") :
    processKV st c k (some v) =
      match tryDates st v with
      | none => c
      | some t => { c with expires := some t } := by
  unfold processKV
  rw [hk, if_neg (by decide), if_neg (by decide)]
  simp only [if_neg (by decide : ¬(chars "expires" = chars "max-age")),
    if_neg (by decide : ¬(chars "expires" = chars "domain")),
    if_neg (by decide : ¬(chars "expires" = chars "path")), if_pos rfl]
  simp

theorem processKV_custom (st : Str → Str → Option Tm) (c : Cookie) (k v : Str)
    (hk : toLower k ∉ recognizedKeys) :
    processKV st c k (some v) = { c with custom := mapInsert c.custom k v } := by
  simp only [recognizedKeys, List.mem_cons, List.mem_singleton, not_or] at hk
  obtain ⟨n1, n2, n3, n4, n5, n6, -⟩ := hk
  unfold processKV
  rw [if_neg n1, if_neg n2]
  simp only [if_neg n3, if_neg n4, if_neg n5, if_neg n6]

theorem strLt_total {a b : Str} (h1 : strLt a b = false) (h2 : a ≠ b) : strLt b a = true := by
  induction a generalizing b with
  | nil =>
    cases b with
    | nil => exact absurd rfl h2
    | cons x t => simp [strLt] at h1
  | cons x s ih =>
    cases b with
    | nil => rfl
    | cons y t =>
      unfold strLt at h1 ⊢
      by_cases hxy : x.toNat < y.toNat
      · rw [if_pos hxy] at h1
        cases h1
      · rw [if_neg hxy] at h1
        by_cases hyx : y.toNat < x.toNat
        · rw [if_pos hyx]
        · rw [if_neg hyx] at h1
          have hx : x = y := charToNat_inj (by omega)
          subst hx
          rw [if_neg hxy, if_neg hxy]
          exact ih h1 (fun he => h2 (by rw [he]))

theorem mapLookup_insert_self (m : List (Str × Str)) (k v : Str) :
    mapLookup (mapInsert m k v) k = some v := by
  induction m with
  | nil => simp [mapInsert, mapLookup]
  | cons p t ih =>
    rcases p with ⟨k0, v0⟩
    unfold mapInsert
    by_cases h1 : strLt k k0 = true
    · rw [if_pos h1]
      simp [mapLookup]
    · rw [if_neg h1]
      by_cases h2 : k = k0
      · rw [if_pos h2]
        simp [mapLookup]
      · rw [if_neg h2]
        unfold mapLookup
        rw [if_neg h2]
        exact ih

theorem mapLookup_insert_other (m : List (Str × Str)) (k v k2 : Str) (h : k2 ≠ k) :
    mapLookup (mapInsert m k v) k2 = mapLookup m k2 := by
  induction m with
  | nil =>
    show (if k2 = k then some v else none) = none
    rw [if_neg h]
  | cons p t ih =>
    rcases p with ⟨k0, v0⟩
    unfold mapInsert
    by_cases h1 : strLt k k0 = true
    · rw [if_pos h1]
      show (if k2 = k then some v else mapLookup ((k0, v0) :: t) k2) = mapLookup ((k0, v0) :: t) k2
      rw [if_neg h]
    · rw [if_neg h1]
      by_cases h2 : k = k0
      · rw [if_pos h2]
        show (if k2 = k then some v else mapLookup t k2) = mapLookup ((k0, v0) :: t) k2
        rw [if_neg h]
        show mapLookup t k2 = if k2 = k0 then some v0 else mapLookup t k2
        rw [if_neg (fun hh : k2 = k0 => h (hh.trans h2.symm))]
      · rw [if_neg h2]
        show (if k2 = k0 then some v0 else mapLookup (mapInsert t k v) k2)
            = if k2 = k0 then some v0 else mapLookup t k2
        by_cases h3 : k2 = k0
        · rw [if_pos h3, if_pos h3]
        · rw [if_neg h3, if_neg h3]
          exact ih

theorem mapInsert_chain {m : List (Str × Str)} (k v : Str) (h : customSorted m) :
    customSorted (mapInsert m k v) := by
  induction m with
  | nil => simp [mapInsert, customSorted]
  | cons q t ih =>
    rcases q with ⟨k0, v0⟩
    unfold customSorted at h ⊢
    unfold mapInsert
    by_cases h1 : strLt k k0 = true
    · rw [if_pos h1]
      exact List.Chain'.cons h1 h
    · rw [if_neg h1]
      by_cases h2 : k = k0
      · rw [if_pos h2]
        cases t with
        | nil => simp
        | cons r t2 =>
          rw [List.chain'_cons] at h ⊢
          exact ⟨h2 ▸ h.1, h.2⟩
      · rw [if_neg h2]
        have hlt : strLt k0 k = true := strLt_total (by simpa using h1) h2
        rw [List.chain'_cons']
        refine ⟨?_, ih h.tail⟩
        intro p hp
        cases t with
        | nil =>
          simp [mapInsert] at hp
          rw [← hp]
          exact hlt
        | cons r t2 =>
          rcases r with ⟨kr, vr⟩
          have hqr : strLt k0 kr = true := (List.chain'_cons.mp h).1
          unfold mapInsert at hp
          by_cases hb1 : strLt k kr = true
          · rw [if_pos hb1] at hp
            simp at hp
            rw [← hp]
            exact hlt
          · rw [if_neg hb1] at hp
            by_cases hb2 : k = kr
            · rw [if_pos hb2] at hp
              simp at hp
              rw [← hp]
              exact hlt
            · rw [if_neg hb2] at hp
              simp at hp
              rw [← hp]
              exact hqr

theorem sortPairs_of_sorted {l : List (Str × Str)} (h : customSorted l) : sortPairs l = l := by
  induction l with
  | nil => rfl
  | cons p t ih =>
    unfold sortPairs
    rw [ih h.tail]
    cases t with
    | nil => rfl
    | cons q t2 =>
      have hpq : strLt p.1 q.1 = true := (List.chain'_cons'.mp h).1 q rfl
      unfold insertSorted
      rw [if_pos hpq]

theorem toStr_eq_specFormat {c : Cookie} (h : customSorted c.custom) :
    toStr c = specFormat c := by
  unfold toStr specFormat
  rw [sortPairs_of_sorted h]

theorem processKV_custom_sorted (st : Str → Str → Option Tm) (c : Cookie) (k : Str)
    (v : Option Str) (h : customSorted c.custom) :
    customSorted (processKV st c k v).custom := by
  unfold processKV
  split
  · exact h
  · split
    · exact h
    · split
      · split
        · split
          · exact h
          · exact h
        · split
          · split
            · exact h
            · exact h
          · split
            · exact h
            · split
              · split
                · exact h
                · exact h
              · exact mapInsert_chain k _ h
      · exact h

theorem parse_preserves {P : Cookie → Prop}
    (hstep : ∀ st c a, P c → P (processAttr st c a))
    (hnew : ∀ n v, P (Cookie.new n v)) :
    ∀ st s c, parseWith st s = some c → P c := by
  intro st s c h
  have hfold : ∀ (l : List Str) (c0 : Cookie), P c0 → P (List.foldl (processAttr st) c0 l) := by
    intro l
    induction l with
    | nil => exact fun c0 hp => hp
    | cons a t ih =>
      intro c0 hp
      exact ih (processAttr st c0 a) (hstep st c0 a hp)
  unfold parseWith at h
  split at h
  · cases h
  · split at h
    · cases h
    · split at h
      · cases h
      · injection h with hc
        rw [← hc]
        exact hfold _ _ (hnew _ _)

theorem processKV_domain_lower (st : Str → Str → Option Tm) (c : Cookie) (k : Str)
    (v : Option Str) (h : ∀ d, c.domain = some d → lowercased d) :
    ∀ d, (processKV st c k v).domain = some d → lowercased d := by
  unfold processKV
  split
  · exact h
  · split
    · exact h
    · split
      · split
        · split
          · exact h
          · exact h
        · split
          · split
            · exact h
            · intro d hd
              injection hd with he
              rw [← he]
              exact lowercased_toLower _
          · split
            · exact h
            · split
              · split
                · exact h
                · exact h
              · exact h
      · exact h

theorem processKV_custom_unchanged (st : Str → Str → Option Tm) (c : Cookie) (k : Str)
    (v : Option Str) (hmem : toLower k ∈ recognizedKeys) :
    (processKV st c k v).custom = c.custom := by
  unfold processKV
  split
  · rfl
  · split
    · rfl
    · split
      · split
        · split
          · rfl
          · rfl
        · split
          · split
            · rfl
            · rfl
          · split
            · rfl
            · split
              · split
                · rfl
                · rfl
              · exfalso
                simp only [recognizedKeys, List.mem_cons, List.not_mem_nil, or_false] at hmem
                rcases hmem with h1 | h1 | h1 | h1 | h1 | h1 <;> simp_all
      · rfl

/-- C1: `parse` returns an error if and only if the first
semicolon-delimited segment of the trimmed input is malformed (no `=`,
or the part before its first `=` is empty after trimming); every other
input parses, and in particular `parse "bar"`, `parse "=bar"` and
`parse " =bar"` fail while `parse "foo="` succeeds with value `""`. -/
theorem claim_parse_error_iff_malformed :
    (∀ (st : Str → Str → Option Tm) (s : Str), parseWith st s = none ↔ malformedFirst s)
    ∧ parseWith noDate (chars "bar") = none
    ∧ parseWith noDate (chars "=bar") = none
    ∧ parseWith noDate (chars " =bar") = none
    ∧ parseWith noDate (chars "foo=") = some (Cookie.new (chars "foo") (chars "")) :=
  ⟨parse_none_iff, by decide, by decide, by decide, by decide⟩

/-- C2, counterexample: for name `""` and value `"bar"`, neither of which
contains `;`, the formatted cookie is `"=bar"` and re-parsing it fails,
so the round-trip claim is false as stated. -/
theorem claim_roundtrip_counterexample :
    (';' ∉ chars "") ∧ (';' ∉ chars "bar")
    ∧ toStr (Cookie.new (chars "") (chars "bar")) = chars "=bar"
    ∧ parseWith noDate (toStr (Cookie.new (chars "") (chars "bar"))) = none := by
  decide

/-- C2, amended: for every name and value without `;`, where additionally
the name is nonempty, free of `=`, and both are trimmed, parsing the
formatted cookie succeeds and returns a structurally equal Cookie. -/
theorem claim_roundtrip_amended (n v : Str) (st : Str → Str → Option Tm)
    (h1 : trim n = n) (h2 : trim v = v) (h3 : n ≠ []) (h4 : ';' ∉ n) (h5 : ';' ∉ v)
    (h6 : '=' ∉ n) :
    parseWith st (toStr (Cookie.new n v)) = some (Cookie.new n v) :=
  parse_toStr_new st h1 h2 h3 h4 h5 h6

/-- C2, witness: the round-trip at name `"foo"`, value `"bar"`. -/
theorem claim_roundtrip_witness :
    parseWith noDate (toStr (Cookie.new (chars "foo") (chars "bar")))
      = some (Cookie.new (chars "foo") (chars "bar")) :=
  claim_roundtrip_amended (chars "foo") (chars "bar") noDate (by decide) (by decide)
    (by decide) (by decide) (by decide) (by decide)

/-- C3, counterexample: `parse "foo=bar; Domain=.."` succeeds and stores
the domain `"."`, which begins with a dot, refuting the no-leading-dot
half of the claim. -/
theorem claim_domain_counterexample :
    parseWith noDate (chars "foo=bar; Domain=..")
      = some { Cookie.new (chars "foo") (chars "bar") with domain := some (chars ".") }
    ∧ (chars ".").head? = some '.' := by
  decide

/-- C3, amended: on every successful parse the domain, when present,
contains no ASCII uppercase letter; it can still begin with `.` because
only one leading dot is stripped, as `Domain=..` shows. -/
theorem claim_domain_lowercase :
    (∀ (st : Str → Str → Option Tm) (s : Str) (c : Cookie), parseWith st s = some c →
      ∀ d, c.domain = some d → lowercased d)
    ∧ parseWith noDate (chars "foo=bar; Domain=..")
      = some { Cookie.new (chars "foo") (chars "bar") with domain := some (chars ".") } := by
  constructor
  · exact parse_preserves (fun st c a h => processKV_domain_lower st c _ _ h)
      (fun n v d hd => by cases hd)
  · decide

/-- C4: a `max-age` attribute with an unparseable value is skipped with
`max_age` unchanged and the parse still succeeds; a negative value
stores `Some 0`; a non-negative `n` stores `Some n`; so `Max-Age` never
fails a parse and never stores a negative value. -/
theorem claim_maxage_clamp (st : Str → Str → Option Tm) (c : Cookie) (k v : Str)
    (hk : toLower k = chars "max-age") :
    (parseI64 v = none → processKV st c k (some v) = c)
    ∧ (∀ n : Int, parseI64 v = some n → n < 0 → (processKV st c k (some v)).max_age = some 0)
    ∧ (∀ n : Int, parseI64 v = some n → 0 ≤ n →
        (processKV st c k (some v)).max_age = some n.toNat)
    ∧ parseWith noDate (chars "foo=bar; Max-Age=-1")
        = some { Cookie.new (chars "foo") (chars "bar") with max_age := some 0 }
    ∧ parseWith noDate (chars "foo=bar; Max-Age=4")
        = some { Cookie.new (chars "foo") (chars "bar") with max_age := some 4 }
    ∧ parseWith noDate (chars "foo=bar; Max-Age=bogus")
        = some (Cookie.new (chars "foo") (chars "bar")) := by
  refine ⟨fun hp => processKV_maxage_skip st c k v hk hp, ?_, ?_, by decide, by decide, by decide⟩
  · intro n hp hn
    rw [processKV_maxage_set st c k v n hk hp]
    simp [if_pos hn]
  · intro n hp hn
    rw [processKV_maxage_set st c k v n hk hp]
    simp [if_neg (not_lt.mpr hn)]

/-- C4, witness: `Max-Age` with value `-7` stores `Some 0`. -/
theorem claim_maxage_witness :
    (processKV noDate (Cookie.new (chars "foo") (chars "bar")) (chars "Max-Age")
      (some (chars "-7"))).max_age = some 0 :=
  (claim_maxage_clamp noDate (Cookie.new (chars "foo") (chars "bar")) (chars "Max-Age")
    (chars "-7") (by decide)).2.1 (-7) (by decide) (by decide)

/-- C5: attribute dispatch is by the lower-cased key and intercepts
exactly `secure`, `httponly`, `max-age`, `domain`, `path`, `expires`;
`secure`/`httponly` are set regardless of any value; every other key
with a value goes into the custom map under its original case. -/
theorem claim_dispatch_six_keys (st : Str → Str → Option Tm) (c : Cookie) (k : Str)
    (v : Option Str) :
    (toLower k = chars "secure" → processKV st c k v = { c with secure := true })
    ∧ (toLower k = chars "httponly" → processKV st c k v = { c with httponly := true })
    ∧ (∀ val, toLower k ∉ recognizedKeys →
        processKV st c k (some val) = { c with custom := mapInsert c.custom k val })
    ∧ (toLower k ∈ recognizedKeys → (processKV st c k v).custom = c.custom)
    ∧ parseWith noDate (chars "foo=bar; HTTPONLY=whatever")
        = some { Cookie.new (chars "foo") (chars "bar") with httponly := true }
    ∧ parseWith noDate (chars "foo=bar; Wut=lol")
        = some { Cookie.new (chars "foo") (chars "bar")
            with custom := [(chars "Wut", chars "lol")] } :=
  ⟨fun hk => processKV_secure st c k v hk,
   fun hk => processKV_httponly st c k v hk,
   fun val hk => processKV_custom st c k val hk,
   fun hk => processKV_custom_unchanged st c k v hk,
   by decide, by decide⟩

/-- C5, witness: `SECURE` (any case, any value) sets the flag. -/
theorem claim_dispatch_witness :
    processKV noDate (Cookie.new (chars "foo") (chars "bar")) (chars "SECURE")
      (some (chars "nonsense"))
      = { Cookie.new (chars "foo") (chars "bar") with secure := true } :=
  (claim_dispatch_six_keys noDate (Cookie.new (chars "foo") (chars "bar")) (chars "SECURE")
    (some (chars "nonsense"))).1 (by decide)

/-- C6: every parsed cookie has its custom map sorted by key, and
formatting any such cookie emits `name=value`, then HttpOnly, Secure,
Path, Domain, Max-Age, Expires (each when present), then the custom
pairs in ascending key order; the composite example of the test suite
renders accordingly. -/
theorem claim_format_fixed_order :
    (∀ (st : Str → Str → Option Tm) (s : Str) (c : Cookie), parseWith st s = some c →
      customSorted c.custom)
    ∧ (∀ c : Cookie, customSorted c.custom → toStr c = specFormat c)
    ∧ toStr { Cookie.new (chars "foo") (chars "bar") with httponly := true, secure := true, max_age := some 4, path := some (chars "/foo"), domain := some (chars "foo.com"), custom := [(chars "wut", chars "lol")] }
      = chars "foo=bar; HttpOnly; Secure; Path=/foo; Domain=foo.com; Max-Age=4; wut=lol" := by
  refine ⟨?_, fun c h => toStr_eq_specFormat h, by decide⟩
  exact parse_preserves (fun st c a h => processKV_custom_sorted st c _ _ h)
    (fun n v => by simp [Cookie.new, customSorted])

/-- C6, witness: format/spec-format agreement on a concrete sorted cookie. -/
theorem claim_format_witness :
    toStr { Cookie.new (chars "foo") (chars "bar")
        with custom := [(chars "abc", chars "1"), (chars "zed", chars "2")] }
      = specFormat { Cookie.new (chars "foo") (chars "bar")
        with custom := [(chars "abc", chars "1"), (chars "zed", chars "2")] } :=
  claim_format_fixed_order.2.1 _ (List.chain'_pair.mpr (by decide))

/-- C7: an `expires` attribute tries the four date formats in their fixed
order, the first success sets `expires`, and when all four fail the
attribute is skipped and the parse still succeeds. -/
theorem claim_expires_four_formats (st : Str → Str → Option Tm) (c : Cookie) (k v : Str)
    (hk : toLower k = chars "expires") :
    (∀ t, st v fmtA = some t → processKV st c k (some v) = { c with expires := some t })
    ∧ (∀ t, st v fmtA = none → st v fmtB = some t →
        processKV st c k (some v) = { c with expires := some t })
    ∧ (∀ t, st v fmtA = none → st v fmtB = none → st v fmtC = some t →
        processKV st c k (some v) = { c with expires := some t })
    ∧ (∀ t, st v fmtA = none → st v fmtB = none → st v fmtC = none → st v fmtD = some t →
        processKV st c k (some v) = { c with expires := some t })
    ∧ (st v fmtA = none → st v fmtB = none → st v fmtC = none → st v fmtD = none →
        processKV st c k (some v) = c)
    ∧ parseWith noDate (chars "foo=bar; Expires=garbage")
        = some (Cookie.new (chars "foo") (chars "bar")) := by
  refine ⟨?_, ?_, ?_, ?_, ?_, by decide⟩
  · intro t hA
    rw [processKV_expires st c k v hk]
    unfold tryDates
    rw [hA]
  · intro t hA hB
    rw [processKV_expires st c k v hk]
    unfold tryDates
    rw [hA, hB]
  · intro t hA hB hC
    rw [processKV_expires st c k v hk]
    unfold tryDates
    rw [hA, hB, hC]
  · intro t hA hB hC hD
    rw [processKV_expires st c k v hk]
    unfold tryDates
    rw [hA, hB, hC, hD]
  · intro hA hB hC hD
    rw [processKV_expires st c k v hk]
    unfold tryDates
    rw [hA, hB, hC, hD]

/-- C7, witness: a date parser succeeding only under the third format
sets `expires`, the first two attempts having failed. -/
theorem claim_expires_witness :
    processKV dateStub (Cookie.new (chars "foo") (chars "bar")) (chars "Expires")
      (some (chars "Thu, 22-Mar-2012 07:31:20 GMT"))
      = { Cookie.new (chars "foo") (chars "bar") with expires := some tm0 } :=
  (claim_expires_four_formats dateStub (Cookie.new (chars "foo") (chars "bar"))
    (chars "Expires") (chars "Thu, 22-Mar-2012 07:31:20 GMT") (by decide)).2.2.1 tm0
    (by decide) (by decide) (by decide)

/-- C8: a `domain` attribute with an empty (trimmed) value is skipped;
otherwise one leading dot is stripped, the rest is ASCII-lowercased and
stored, so `Domain=FOO.COM` and `Domain=foo.com` both store
`"foo.com"` while `Domain=` stores nothing. -/
theorem claim_domain_attribute (st : Str → Str → Option Tm) (c : Cookie) (k : Str)
    (hk : toLower k = chars "domain") :
    processKV st c k (some []) = c
    ∧ (∀ v : Str, v ≠ [] →
        processKV st c k (some v) = { c with domain := some (toLower (stripDot v)) })
    ∧ parseWith noDate (chars "foo=bar; Domain=FOO.COM")
        = some { Cookie.new (chars "foo") (chars "bar") with domain := some (chars "foo.com") }
    ∧ parseWith noDate (chars "foo=bar; Domain=foo.com")
        = some { Cookie.new (chars "foo") (chars "bar") with domain := some (chars "foo.com") }
    ∧ parseWith noDate (chars "foo=bar; Domain=")
        = some (Cookie.new (chars "foo") (chars "bar")) :=
  ⟨processKV_domain_skip st c k hk,
   fun v hv => processKV_domain_set st c k v hk hv,
   by decide, by decide, by decide⟩

/-- C8, witness: the empty-value skip at a concrete cookie. -/
theorem claim_domain_attribute_witness :
    processKV noDate (Cookie.new (chars "foo") (chars "bar")) (chars "Domain") (some [])
      = Cookie.new (chars "foo") (chars "bar") :=
  (claim_domain_attribute noDate (Cookie.new (chars "foo") (chars "bar")) (chars "Domain")
    (by decide)).1

/-- C9: a `domain` attribute whose value is exactly `"."` is nonempty, so
the emptiness skip does not apply; the single dot is stripped and the
empty string is stored: `domain = Some ""`, not unset. -/
theorem claim_domain_single_dot :
    chars "." ≠ ([] : Str)
    ∧ parseWith noDate (chars "foo=bar; Domain=.")
        = some { Cookie.new (chars "foo") (chars "bar") with domain := some [] } := by
  decide

/-- C10: each recognized valued attribute assignment overwrites the field
regardless of its previous contents, and a custom insertion replaces the
binding of an equal key while leaving other keys alone, so the last
usable occurrence wins, as the two concrete repeats show. -/
theorem claim_last_occurrence_wins (st : Str → Str → Option Tm) (c : Cookie) (k v : Str) :
    (toLower k = chars "max-age" → ∀ n, parseI64 v = some n →
      (processKV st c k (some v)).max_age = some (if n < 0 then 0 else n.toNat))
    ∧ (toLower k = chars "domain" → v ≠ [] →
      (processKV st c k (some v)).domain = some (toLower (stripDot v)))
    ∧ (toLower k = chars "path" → (processKV st c k (some v)).path = some v)
    ∧ (toLower k = chars "expires" → ∀ t, tryDates st v = some t →
      (processKV st c k (some v)).expires = some t)
    ∧ (toLower k ∉ recognizedKeys →
      (processKV st c k (some v)).custom = mapInsert c.custom k v)
    ∧ (∀ m val, mapLookup (mapInsert m k val) k = some val)
    ∧ (∀ m val k2, k2 ≠ k → mapLookup (mapInsert m k val) k2 = mapLookup m k2)
    ∧ parseWith noDate (chars "foo=bar; Domain=a.com; Domain=b.com")
        = some { Cookie.new (chars "foo") (chars "bar") with domain := some (chars "b.com") }
    ∧ parseWith noDate (chars "foo=bar; wut=1; wut=2")
        = some { Cookie.new (chars "foo") (chars "bar") with custom := [(chars "wut", chars "2")] } := by
  refine ⟨?_, ?_, ?_, ?_, ?_, fun m val => mapLookup_insert_self m k val,
    fun m val k2 h2 => mapLookup_insert_other m k val k2 h2, by decide, by decide⟩
  · intro hk n hp
    rw [processKV_maxage_set st c k v n hk hp]
  · intro hk hv
    rw [processKV_domain_set st c k v hk hv]
  · intro hk
    rw [processKV_path st c k v hk]
  · intro hk t ht
    rw [processKV_expires st c k v hk]
    rw [ht]
  · intro hk
    rw [processKV_custom st c k v hk]

end CookieRs
